import Mathlib

/-!
Verification of the seek-resolver core of the tailr utility
(src/tailr/src/main.rs): position parsing, byte- and line-anchored seek
resolution, and the bounded-memory backward scanner.

Streams are modelled as lists of byte values (Nat, newline = 10); the
scanner buffer size BUF_SIZE is a parameter B of the embedding (4096 in
the source outside tests, 10 under cfg(test)).
-/

namespace Tailr

/-- Position specification: N units from the start or from the end
(mirrors enum Pos in src/tailr/src/main.rs). -/
inductive Pos where
  | FromStart (n : Nat)
  | FromEnd (n : Nat)
deriving DecidableEq, Repr

/-- Mode: the position counts lines or bytes (mirrors enum Mode). -/
inductive Mode where
  | Lines (p : Pos)
  | Bytes (p : Pos)
deriving DecidableEq, Repr

/-- Model of std SeekFrom as produced by the resolvers: Start carries an
absolute non-negative offset, End a signed displacement from the end. -/
inductive SeekFrom where
  | Start (n : Nat)
  | End (i : Int)
deriving DecidableEq, Repr

/-- Absolute offset denoted by a SeekFrom value on a stream of length len. -/
def resolveSeek (len : Nat) : SeekFrom → Int
  | .Start n => (n : Int)
  | .End i => (len : Int) + i

/-- Embeds bytes_seek_pos: the length probe is the length of the content
list. -/
def bytes_seek_pos (content : List Nat) : Pos → SeekFrom
  | .FromStart offset => .Start (min content.length offset)
  | .FromEnd offset => .End (-(min content.length offset : Int))

/-- The per-byte loop of lines_seek_pos in the FromStart case: rem is the
number of newlines still to pass, skip the bytes consumed so far
(skip_byte in the source). -/
def skip_lines_forward : List Nat → Nat → Nat → Nat
  | _, 0, skip => skip
  | [], _ + 1, skip => skip
  | b :: rest, rem + 1, skip =>
    if b = 10 then
      if rem = 0 then skip + 1 else skip_lines_forward rest rem (skip + 1)
    else skip_lines_forward rest (rem + 1) (skip + 1)

/-- State of BackScanner: the in-memory chunk, the cursor inside it, and
the file offset at which the chunk begins.  The underlying stream is the
content list, passed to the operations. -/
structure BackScanner where
  buf : List Nat
  buf_pos : Nat
  buf_offset_in_file : Nat
deriving DecidableEq, Repr

/-- BackScanner::fill_buf: read forward from the given offset for up to B
bytes (fewer only when the stream ends first). -/
def fill_buf (B : Nat) (content : List Nat) (offset : Nat) : List Nat :=
  (content.drop offset).take B

/-- BackScanner::new: locate and load the rightmost chunk; a length that
is an exact non-zero multiple of B gets a full final chunk. -/
def BackScanner.new (B : Nat) (content : List Nat) : BackScanner :=
  let file_len := content.length
  let r := file_len % B
  let last_chunk_len := if r = 0 ∧ B ≤ file_len then B else r
  let buf_offset_in_file := file_len - last_chunk_len
  let buf := fill_buf B content buf_offset_in_file
  { buf := buf, buf_pos := buf.length, buf_offset_in_file := buf_offset_in_file }

/-- BackScanner::peek: non-consuming look at the most recently buffered
byte. -/
def BackScanner.peek (s : BackScanner) : Option Nat :=
  if 0 < s.buf_pos then some (s.buf.getD (s.buf_pos - 1) 0) else none

/-- BackScanner::next: yield one byte, or refill one chunk further left,
or end when the chunk at offset zero is exhausted.  Returns the yielded
byte together with the successor state. -/
def BackScanner.next (B : Nat) (content : List Nat) (s : BackScanner) :
    Option (Nat × BackScanner) :=
  if s.buf_pos = 0 then
    if s.buf_offset_in_file = 0 then
      none
    else
      let offset := s.buf_offset_in_file - B
      let buf := fill_buf B content offset
      some (buf.getD (buf.length - 1) 0,
        { buf := buf, buf_pos := buf.length - 1, buf_offset_in_file := offset })
  else
    some (s.buf.getD (s.buf_pos - 1) 0, { s with buf_pos := s.buf_pos - 1 })

/-- Collect every byte the scanner yields.  The fuel only bounds the
recursion; content.length is proved below to never run out. -/
def drainAux (B : Nat) (content : List Nat) : Nat → BackScanner → List Nat
  | 0, _ => []
  | fuel + 1, s =>
    match BackScanner.next B content s with
    | none => []
    | some (b, s2) => b :: drainAux B content fuel s2

/-- All bytes a fresh scanner yields, in yield order. -/
def drain (B : Nat) (content : List Nat) : List Nat :=
  drainAux B content content.length (BackScanner.new B content)

/-- The newline-counting loop of lines_seek_pos in the FromEnd case, over
the bytes the scanner yields: rem newlines still wanted (never entered
with rem = 0), nb is need_bytes. -/
def count_back : List Nat → Nat → Nat → Nat
  | [], _, nb => nb
  | b :: rest, rem, nb =>
    if b = 10 then
      if rem - 1 = 0 then nb else count_back rest (rem - 1) (nb + 1)
    else count_back rest rem (nb + 1)

/-- Embeds lines_seek_pos; B is the scanner buffer size (BUF_SIZE). -/
def lines_seek_pos (B : Nat) (content : List Nat) : Pos → SeekFrom
  | .FromStart offset => .Start (skip_lines_forward content offset 0)
  | .FromEnd 0 => .End 0
  | .FromEnd offset =>
    let scanner := BackScanner.new B content
    let rem := if scanner.peek = some 10 then offset + 1 else offset
    let need_bytes := count_back (drain B content) rem 0
    .End (-(need_bytes : Int))

/-- BUF_SIZE outside cfg(test). -/
def BUF_SIZE : Nat := 4096

/-- The mode dispatch performed by process_file before copying. -/
def seek_pos (B : Nat) (content : List Nat) : Mode → SeekFrom
  | .Lines p => lines_seek_pos B content p
  | .Bytes p => bytes_seek_pos content p

/-- usize::MAX on a 64-bit platform. -/
def USIZE_MAX : Nat := 2 ^ 64 - 1

/-- ASCII decimal digit test. -/
def isDigitChar (c : Char) : Bool := 48 ≤ c.toNat && c.toNat ≤ 57

/-- Value of a big-endian ASCII digit string. -/
def digitsVal (cs : List Char) : Nat :=
  cs.foldl (fun a c => a * 10 + (c.toNat - 48)) 0

/-- Model of str::parse::<usize>(): an optional leading plus sign, then
one or more ASCII digits, the value bounded by usize::MAX. -/
def parse_usize (cs : List Char) : Except String Nat :=
  let ds := if cs.head? = some '+' then cs.tail else cs
  if ds.isEmpty then .error "cannot parse integer from empty string"
  else if ds.all isDigitChar then
    if digitsVal ds ≤ USIZE_MAX then .ok (digitsVal ds)
    else .error "number too large to fit in target type"
  else .error "invalid digit found in string"

/-- Embeds parse_pos (strings as char lists, the source matches on the
first character: a plus sign selects FromStart and is stripped, a minus
sign is stripped, anything else is parsed whole as FromEnd). -/
def parse_pos (arg : List Char) : Except String Pos :=
  if arg.isEmpty then .error "Position arg must not be empty"
  else if arg.head? = some '+' then
    (parse_usize arg.tail).map fun num => .FromStart (if 0 < num then num - 1 else 0)
  else if arg.head? = some '-' then
    (parse_usize arg.tail).map .FromEnd
  else
    (parse_usize arg).map .FromEnd

/-- Content made of the given newline-free lines, each terminated by a
newline byte. -/
def linesContent (ls : List (List Nat)) : List Nat :=
  (ls.map (fun l => l ++ [10])).flatten

/-- Byte offset at which the (i+1)-th of the given lines starts. -/
def lineStart (ls : List (List Nat)) (i : Nat) : Nat :=
  ((ls.take i).map (fun l => l.length + 1)).sum

/-- Byte offset of the start of the final line: the stream length minus
the length of the maximal newline-free suffix. -/
def lastLineStart (content : List Nat) : Nat :=
  content.length - (content.reverse.takeWhile (fun b => b != 10)).length

/-- Scanner state invariant relating a reachable state to the content. -/
def Inv (B : Nat) (content : List Nat) (s : BackScanner) : Prop :=
  s.buf = fill_buf B content s.buf_offset_in_file ∧
  s.buf_pos ≤ s.buf.length ∧
  s.buf_offset_in_file ≤ content.length ∧
  B ∣ s.buf_offset_in_file

/-- States reachable from a fresh scanner by repeated next calls. -/
inductive Reach (B : Nat) (content : List Nat) : BackScanner → Prop where
  | base : Reach B content (BackScanner.new B content)
  | step {s : BackScanner} {b : Nat} {s2 : BackScanner} :
      Reach B content s → BackScanner.next B content s = some (b, s2) →
      Reach B content s2

/-- Length of one buffer fill. -/
theorem fill_buf_length (B : Nat) (content : List Nat) (offset : Nat) :
    (fill_buf B content offset).length = min B (content.length - offset) := by
  simp [fill_buf]

/-- A byte inside a filled buffer is the content byte at the shifted index. -/
theorem fill_buf_getD (B : Nat) (content : List Nat) (offset i : Nat)
    (h : i < (fill_buf B content offset).length) :
    (fill_buf B content offset).getD i 0 = content.getD (offset + i) 0 := by
  have hi : i < B := by
    rw [fill_buf_length] at h
    omega
  simp [fill_buf, List.getD_eq_getElem?_getD, List.getElem?_take, List.getElem?_drop, hi]

/-- The freshly constructed scanner satisfies the invariant. -/
theorem inv_new (B : Nat) (content : List Nat) :
    Inv B content (BackScanner.new B content) := by
  refine ⟨rfl, le_refl _, Nat.sub_le _ _, ?_⟩
  simp only [BackScanner.new]
  by_cases h : content.length % B = 0 ∧ B ≤ content.length
  · rw [if_pos h]
    exact Nat.dvd_sub' (Nat.dvd_of_mod_eq_zero h.1) dvd_rfl
  · rw [if_neg h]
    have hdm := Nat.div_add_mod content.length B
    exact ⟨content.length / B, by omega⟩

/-- Reversing one more taken byte conses the byte at that index. -/
theorem take_succ_reverse (content : List Nat) (m : Nat) (h : m < content.length) :
    (content.take (m + 1)).reverse = content.getD m 0 :: (content.take m).reverse := by
  rw [List.take_succ, List.reverse_append]
  rw [List.getElem?_eq_getElem h]
  simp [List.getD_eq_getElem?_getD, List.getElem?_eq_getElem h]

/-- Main drain characterization: from any state satisfying the invariant,
the scanner yields exactly the reversal of the first
buf_offset_in_file + buf_pos content bytes. -/
theorem drainAux_inv (B : Nat) (content : List Nat) (hB : 0 < B) :
    ∀ fuel s, Inv B content s →
      s.buf_offset_in_file + s.buf_pos ≤ fuel →
      drainAux B content fuel s =
        (content.take (s.buf_offset_in_file + s.buf_pos)).reverse := by
  intro fuel
  induction fuel with
  | zero =>
    intro s hInv hle
    have h0 : s.buf_offset_in_file = 0 ∧ s.buf_pos = 0 := by omega
    simp [drainAux, h0.1, h0.2]
  | succ n ih =>
    intro s hInv hle
    obtain ⟨hbuf, hpos, hoff, hdvd⟩ := hInv
    by_cases hp : s.buf_pos = 0
    · by_cases ho : s.buf_offset_in_file = 0
      · simp [drainAux, BackScanner.next, hp, ho]
      · -- buffer exhausted, refill one chunk to the left
        have hBle : B ≤ s.buf_offset_in_file :=
          Nat.le_of_dvd (Nat.pos_of_ne_zero ho) hdvd
        have hlen : (fill_buf B content (s.buf_offset_in_file - B)).length = B := by
          rw [fill_buf_length]
          omega
        have hnext : BackScanner.next B content s =
            some ((fill_buf B content (s.buf_offset_in_file - B)).getD
                    ((fill_buf B content (s.buf_offset_in_file - B)).length - 1) 0,
              ⟨fill_buf B content (s.buf_offset_in_file - B),
                (fill_buf B content (s.buf_offset_in_file - B)).length - 1,
                s.buf_offset_in_file - B⟩) := by
          simp [BackScanner.next, hp, ho]
        have hInv2 : Inv B content
            ⟨fill_buf B content (s.buf_offset_in_file - B),
              (fill_buf B content (s.buf_offset_in_file - B)).length - 1,
              s.buf_offset_in_file - B⟩ :=
          ⟨rfl, Nat.sub_le _ _,
            (show s.buf_offset_in_file - B ≤ content.length by omega),
            Nat.dvd_sub' hdvd dvd_rfl⟩
        have hm2 : (s.buf_offset_in_file - B) +
            ((fill_buf B content (s.buf_offset_in_file - B)).length - 1) ≤ n := by
          rw [hlen]
          omega
        have hrec : drainAux B content n
            ⟨fill_buf B content (s.buf_offset_in_file - B),
              (fill_buf B content (s.buf_offset_in_file - B)).length - 1,
              s.buf_offset_in_file - B⟩ =
            (content.take ((s.buf_offset_in_file - B) +
              ((fill_buf B content (s.buf_offset_in_file - B)).length - 1))).reverse :=
          ih _ hInv2 hm2
        simp only [drainAux, hnext]
        rw [hrec]
        have hidx : (s.buf_offset_in_file - B) +
            ((fill_buf B content (s.buf_offset_in_file - B)).length - 1) =
            s.buf_offset_in_file - 1 := by
          rw [hlen]
          omega
        have hbyte : (fill_buf B content (s.buf_offset_in_file - B)).getD
            ((fill_buf B content (s.buf_offset_in_file - B)).length - 1) 0 =
            content.getD (s.buf_offset_in_file - 1) 0 := by
          rw [fill_buf_getD B content (s.buf_offset_in_file - B) _ (by rw [hlen]; omega)]
          rw [hidx]
        rw [hbyte, hidx, ← take_succ_reverse content (s.buf_offset_in_file - 1) (by omega)]
        have harg : s.buf_offset_in_file - 1 + 1 = s.buf_offset_in_file + s.buf_pos := by
          omega
        rw [harg]
    · -- bytes remain in the current buffer
      have hnext : BackScanner.next B content s =
          some (s.buf.getD (s.buf_pos - 1) 0,
            ⟨s.buf, s.buf_pos - 1, s.buf_offset_in_file⟩) := by
        simp [BackScanner.next, hp]
      have hInv2 : Inv B content ⟨s.buf, s.buf_pos - 1, s.buf_offset_in_file⟩ :=
        ⟨hbuf, (show s.buf_pos - 1 ≤ s.buf.length by omega), hoff, hdvd⟩
      have hm2 : s.buf_offset_in_file + (s.buf_pos - 1) ≤ n := by omega
      have hrec : drainAux B content n ⟨s.buf, s.buf_pos - 1, s.buf_offset_in_file⟩ =
          (content.take (s.buf_offset_in_file + (s.buf_pos - 1))).reverse :=
        ih _ hInv2 hm2
      simp only [drainAux, hnext]
      rw [hrec]
      have hlt : s.buf_pos - 1 < (fill_buf B content s.buf_offset_in_file).length := by
        rw [← hbuf]
        omega
      have hblen : s.buf_pos ≤ content.length - s.buf_offset_in_file := by
        have hfl := fill_buf_length B content s.buf_offset_in_file
        have hpos2 : s.buf_pos ≤ (fill_buf B content s.buf_offset_in_file).length := by
          rw [← hbuf]
          exact hpos
        omega
      have hm : s.buf_offset_in_file + s.buf_pos - 1 < content.length := by omega
      have hbyte : s.buf.getD (s.buf_pos - 1) 0 =
          content.getD (s.buf_offset_in_file + s.buf_pos - 1) 0 := by
        rw [hbuf, fill_buf_getD B content s.buf_offset_in_file _ hlt]
        congr 1
        omega
      have harg : s.buf_offset_in_file + (s.buf_pos - 1) =
          s.buf_offset_in_file + s.buf_pos - 1 := by omega
      rw [hbyte, harg, ← take_succ_reverse content (s.buf_offset_in_file + s.buf_pos - 1) hm]
      have harg2 : s.buf_offset_in_file + s.buf_pos - 1 + 1 =
          s.buf_offset_in_file + s.buf_pos := by omega
      rw [harg2]

/-- The fresh scanner starts with exactly the whole content ahead of it. -/
theorem new_measure (B : Nat) (content : List Nat) (hB : 0 < B) :
    (BackScanner.new B content).buf_offset_in_file +
      (BackScanner.new B content).buf_pos = content.length := by
  simp only [BackScanner.new, fill_buf_length]
  have h1 := Nat.mod_lt content.length hB
  have h2 := Nat.mod_le content.length B
  by_cases h : content.length % B = 0 ∧ B ≤ content.length
  · rw [if_pos h]
    omega
  · rw [if_neg h]
    omega

/-- A fresh scanner drains to the reversed content. -/
theorem drain_eq_reverse (B : Nat) (content : List Nat) (hB : 0 < B) :
    drain B content = content.reverse := by
  have h := drainAux_inv B content hB content.length (BackScanner.new B content)
    (inv_new B content) (le_of_eq (new_measure B content hB))
  rw [drain, h, new_measure B content hB, List.take_length]

/-- The three fields of a fresh scanner, spelled out. -/
theorem new_fields (B : Nat) (content : List Nat) :
    (BackScanner.new B content).buf_offset_in_file =
      content.length -
        (if content.length % B = 0 ∧ B ≤ content.length then B
          else content.length % B) ∧
    (BackScanner.new B content).buf =
      fill_buf B content ((BackScanner.new B content).buf_offset_in_file) ∧
    (BackScanner.new B content).buf_pos = (BackScanner.new B content).buf.length :=
  ⟨rfl, rfl, rfl⟩

/-- Peek on a fresh scanner sees the last content byte. -/
theorem peek_new (B : Nat) (content : List Nat) (hB : 0 < B) :
    (BackScanner.new B content).peek = content.reverse.head? := by
  rw [List.head?_reverse, List.getLast?_eq_getElem?]
  by_cases hL : content.length = 0
  · have hnil : content = [] := List.length_eq_zero.mp hL
    subst hnil
    simp [BackScanner.peek, BackScanner.new, fill_buf]
  · obtain ⟨hoffv, hbufv, hposv⟩ := new_fields B content
    have hmeas := new_measure B content hB
    have hofflt : (BackScanner.new B content).buf_offset_in_file < content.length := by
      rw [hoffv]
      have h1 := Nat.mod_lt content.length hB
      have h2 := Nat.mod_le content.length B
      have h3 : content.length < B → content.length % B = content.length :=
        fun hlt => Nat.mod_eq_of_lt hlt
      by_cases h : content.length % B = 0 ∧ B ≤ content.length
      · rw [if_pos h]
        omega
      · rw [if_neg h]
        omega
    have hppos : 0 < (BackScanner.new B content).buf_pos := by omega
    have hfl : (fill_buf B content (BackScanner.new B content).buf_offset_in_file).length =
        (BackScanner.new B content).buf_pos := by
      rw [hposv, hbufv]
    have hlt : (BackScanner.new B content).buf_pos - 1 <
        (fill_buf B content (BackScanner.new B content).buf_offset_in_file).length := by
      rw [hfl]
      omega
    have hbyte := fill_buf_getD B content (BackScanner.new B content).buf_offset_in_file
      ((BackScanner.new B content).buf_pos - 1) hlt
    simp only [BackScanner.peek, if_pos hppos]
    rw [hbufv, hbyte]
    have hidx : (BackScanner.new B content).buf_offset_in_file +
        ((BackScanner.new B content).buf_pos - 1) = content.length - 1 := by omega
    rw [hidx]
    have hlast : content.length - 1 < content.length := by omega
    simp [List.getD_eq_getElem?_getD, List.getElem?_eq_getElem hlast]

/-- C4: for a stream of length L, Bytes(FromStart O) resolves to
min L O, Bytes(FromEnd O) resolves to L - min L O, and the latter never
goes below zero (no underflow) even for O > L. -/
theorem bytes_seek_pos_resolved (content : List Nat) (o : Nat) :
    resolveSeek content.length (bytes_seek_pos content (.FromStart o)) =
      (min content.length o : Int) ∧
    resolveSeek content.length (bytes_seek_pos content (.FromEnd o)) =
      (content.length : Int) - (min content.length o : Int) ∧
    0 ≤ resolveSeek content.length (bytes_seek_pos content (.FromEnd o)) := by
  refine ⟨?_, ?_, ?_⟩ <;> simp [resolveSeek, bytes_seek_pos]
  all_goals omega

/-- C5: for every stream content and every positive buffer size, a fresh
Backward Scanner yields exactly the bytes of the stream in strict reverse
order (last byte first), emitting no extra bytes and skipping none; this
covers the empty stream and lengths that are exact non-zero multiples of
the buffer size. -/
theorem backscanner_yields_reverse (B : Nat) (content : List Nat) (hB : 0 < B) :
    drain B content = content.reverse :=
  drain_eq_reverse B content hB

/-- Witness for C5 at buffer size 2 over a six-byte stream: the length is
an exact multiple of the buffer size and the buffer is strictly smaller
than the content. -/
theorem backscanner_yields_reverse_witness :
    drain 2 [97, 98, 99, 100, 101, 102] = [102, 101, 100, 99, 98, 97] :=
  (backscanner_yields_reverse 2 [97, 98, 99, 100, 101, 102] (by decide)).trans
    (by decide)

/-- C8 counterexample: with an eleven-byte stream and buffer size 10 (the
source's BUF_SIZE under cfg(test)), after one next call the current chunk
is exhausted while ten bytes remain: peek returns none although the
scanner is not exhausted, since the following next call still yields a
byte. -/
theorem backscanner_peek_not_exhausted :
    (BackScanner.next 10 (List.replicate 11 97)
        (BackScanner.new 10 (List.replicate 11 97))).map
        (fun p => (p.2.peek,
          (BackScanner.next 10 (List.replicate 11 97) p.2).isSome)) =
      some (none, true) := by
  decide

/-- C8 amended: on a freshly constructed scanner, peek returns none
exactly when the stream is empty (the only fresh state that is already
exhausted); and over an empty stream the scanner yields no bytes, next
returns none, and peek returns none. -/
theorem backscanner_peek_fresh (B : Nat) (content : List Nat) (hB : 0 < B) :
    ((BackScanner.new B content).peek = none ↔ content = []) ∧
    drain B [] = [] ∧
    BackScanner.next B [] (BackScanner.new B []) = none ∧
    (BackScanner.new B []).peek = none := by
  have hnil : BackScanner.new B [] = ⟨[], 0, 0⟩ := by
    simp [BackScanner.new, fill_buf]
  refine ⟨?_, drain_eq_reverse B [] hB, ?_, ?_⟩
  · rw [peek_new B content hB, List.head?_eq_none_iff, List.reverse_eq_nil_iff]
  · rw [hnil]
    simp [BackScanner.next]
  · rw [hnil]
    simp [BackScanner.peek]

/-- Witness for the amended C8 at buffer size 10 and the empty stream. -/
theorem backscanner_peek_fresh_witness :
    ((BackScanner.new 10 ([] : List Nat)).peek = none ↔ ([] : List Nat) = []) ∧
    drain 10 [] = [] ∧
    BackScanner.next 10 [] (BackScanner.new 10 []) = none ∧
    (BackScanner.new 10 []).peek = none :=
  backscanner_peek_fresh 10 [] (by decide)

/-- One next call either keeps the chunk-start offset or, when it is
nonzero, moves it down by exactly B. -/
theorem next_offset (B : Nat) (content : List Nat) (s : BackScanner) (b : Nat)
    (s2 : BackScanner)
    (h : BackScanner.next B content s = some (b, s2)) :
    s2.buf_offset_in_file = s.buf_offset_in_file ∨
      (s.buf_offset_in_file ≠ 0 ∧
        s2.buf_offset_in_file = s.buf_offset_in_file - B) := by
  by_cases hp : s.buf_pos = 0
  · by_cases ho : s.buf_offset_in_file = 0
    · simp [BackScanner.next, hp, ho] at h
    · right
      refine ⟨ho, ?_⟩
      simp [BackScanner.next, hp, ho] at h
      rw [← h.2]
  · left
    simp [BackScanner.next, hp] at h
    rw [← h.2]

/-- C10: in every reachable scanner state the chunk-start offset is a
multiple of the buffer size; hence whenever it is nonzero it is at least
the buffer size, so the subtraction of B in next cannot underflow and the
multiple-of-B assertion in next holds after the subtraction. -/
theorem backscanner_offset_multiple (B : Nat) (content : List Nat)
    (s : BackScanner) (h : Reach B content s) :
    B ∣ s.buf_offset_in_file ∧
    (s.buf_offset_in_file ≠ 0 →
      B ≤ s.buf_offset_in_file ∧ B ∣ s.buf_offset_in_file - B) := by
  have hdvd : B ∣ s.buf_offset_in_file := by
    induction h with
    | base => exact (inv_new B content).2.2.2
    | step hr hn ih =>
      rcases next_offset _ _ _ _ _ hn with heq | ⟨hne, heq⟩
      · rw [heq]
        exact ih
      · rw [heq]
        exact Nat.dvd_sub' ih dvd_rfl
  exact ⟨hdvd, fun hne =>
    ⟨Nat.le_of_dvd (Nat.pos_of_ne_zero hne) hdvd, Nat.dvd_sub' hdvd dvd_rfl⟩⟩

/-- Witness for C10 at the fresh state over an eleven-byte stream with
buffer size 10 (the offset there is 10). -/
theorem backscanner_offset_multiple_witness :
    10 ∣ (BackScanner.new 10 (List.replicate 11 97)).buf_offset_in_file ∧
    ((BackScanner.new 10 (List.replicate 11 97)).buf_offset_in_file ≠ 0 →
      10 ≤ (BackScanner.new 10 (List.replicate 11 97)).buf_offset_in_file ∧
      10 ∣ (BackScanner.new 10 (List.replicate 11 97)).buf_offset_in_file - 10) :=
  backscanner_offset_multiple 10 (List.replicate 11 97) _ Reach.base

/-- count_back only adds to its accumulator. -/
theorem count_back_acc (r : List Nat) :
    ∀ rem nb, count_back r rem nb = nb + count_back r rem 0 := by
  induction r with
  | nil =>
    intro rem nb
    simp [count_back]
  | cons b t ih =>
    intro rem nb
    by_cases hb : b = 10
    · by_cases hr : rem - 1 = 0
      · simp [count_back, hb, hr]
      · simp only [count_back, if_pos hb, if_neg hr]
        rw [ih (rem - 1) (nb + 1), ih (rem - 1) 1]
        omega
    · simp only [count_back, if_neg hb]
      rw [ih rem (nb + 1), ih rem 1]
      omega

/-- One step of count_back at a newline byte. -/
theorem count_back_cons_nl (t : List Nat) (rem nb : Nat) :
    count_back (10 :: t) rem nb =
      if rem - 1 = 0 then nb else count_back t (rem - 1) (nb + 1) := by
  simp [count_back]

/-- One step of count_back at a non-newline byte. -/
theorem count_back_cons (b : Nat) (t : List Nat) (rem nb : Nat) (hb : ¬ b = 10) :
    count_back (b :: t) rem nb = count_back t rem (nb + 1) := by
  simp [count_back, hb]

/-- Scanning a newline-free prefix consumes it whole, counting its bytes. -/
theorem count_back_no_nl (p : List Nat) (rest : List Nat) :
    ∀ nb rem, (∀ x ∈ p, ¬ x = 10) →
      count_back (p ++ rest) rem nb = count_back rest rem (nb + p.length) := by
  induction p with
  | nil =>
    intro nb rem _
    simp
  | cons b t ih =>
    intro nb rem hp
    have hb : ¬ b = 10 := hp b (by simp)
    rw [List.cons_append, count_back_cons b _ rem nb hb]
    rw [ih (nb + 1) rem (fun x hx => hp x (by simp [hx]))]
    congr 1
    simp
    omega

/-- count_back over reversed newline-terminated lines, presented last line
first as group (newline, reversed line): it stops at the rem-th newline
and has then counted the sizes of the rem−1 groups before it (all groups
when fewer than rem newlines exist). -/
theorem count_back_groups (ls : List (List Nat)) :
    ∀ rem nb, (∀ l ∈ ls, ∀ x ∈ l, ¬ x = 10) → 1 ≤ rem →
      count_back ((ls.map (fun l => 10 :: l.reverse)).flatten) rem nb =
        nb + lineStart ls (min (rem - 1) ls.length) := by
  induction ls with
  | nil =>
    intro rem nb _ _
    simp [count_back, lineStart]
  | cons l t ih =>
    intro rem nb hls h1
    simp only [List.map_cons, List.flatten_cons, List.cons_append]
    rw [count_back_cons_nl]
    by_cases hr : rem - 1 = 0
    · rw [if_pos hr]
      have hmin : min (rem - 1) (l :: t).length = 0 := by omega
      rw [hmin]
      simp [lineStart]
    · rw [if_neg hr]
      rw [count_back_no_nl l.reverse _ (nb + 1) (rem - 1)
        (fun x hx => hls l (by simp) x (List.mem_reverse.mp hx))]
      rw [ih (rem - 1) (nb + 1 + l.reverse.length)
        (fun l2 hl2 => hls l2 (by simp [hl2])) (by omega)]
      have hmin : min (rem - 1) (l :: t).length =
          min (rem - 1 - 1) t.length + 1 := by
        simp only [List.length_cons]
        omega
      rw [hmin]
      have hstep : lineStart (l :: t) (min (rem - 1 - 1) t.length + 1) =
          (l.length + 1) + lineStart t (min (rem - 1 - 1) t.length) := by
        simp [lineStart]
      rw [hstep, List.length_reverse]
      omega

/-- With rem = 1 the backward count stops at the first newline seen,
i.e. after the maximal newline-free suffix of the stream. -/
theorem count_back_one (r : List Nat) :
    ∀ nb, count_back r 1 nb = nb + (r.takeWhile (fun b => b != 10)).length := by
  induction r with
  | nil =>
    intro nb
    simp [count_back]
  | cons b t ih =>
    intro nb
    by_cases hb : b = 10
    · subst hb
      simp [count_back]
    · have hbne : (b != 10) = true := by simp [hb]
      simp only [count_back, if_neg hb, List.takeWhile_cons, hbne]
      rw [ih (nb + 1)]
      simp
      omega

/-- count_back never counts more bytes than the list holds. -/
theorem count_back_le (r : List Nat) :
    ∀ rem nb, count_back r rem nb ≤ nb + r.length := by
  induction r with
  | nil =>
    intro rem nb
    simp [count_back]
  | cons b t ih =>
    intro rem nb
    by_cases hb : b = 10
    · by_cases hr : rem - 1 = 0
      · simp only [count_back, if_pos hb, if_pos hr, List.length_cons]
        omega
      · simp only [count_back, if_pos hb, if_neg hr, List.length_cons]
        have := ih (rem - 1) (nb + 1)
        omega
    · simp only [count_back, if_neg hb, List.length_cons]
      have := ih rem (nb + 1)
      omega

/-- Reversing newline-terminated lines groups the reversal last line
first, each group led by its terminating newline. -/
theorem linesContent_reverse (ls : List (List Nat)) :
    (linesContent ls).reverse =
      (ls.reverse.map (fun l => 10 :: l.reverse)).flatten := by
  induction ls with
  | nil => simp [linesContent]
  | cons l t ih =>
    simp only [linesContent, List.map_cons, List.flatten_cons,
      List.reverse_append, List.reverse_cons, List.map_append,
      List.flatten_append]
    rw [← linesContent, ih]
    simp

/-- The length of newline-terminated lines content is the sum of the line
sizes. -/
theorem linesContent_length (ls : List (List Nat)) :
    (linesContent ls).length = lineStart ls ls.length := by
  induction ls with
  | nil => simp [linesContent, lineStart]
  | cons l t ih =>
    simp only [linesContent, List.map_cons, List.flatten_cons,
      List.length_append, List.length_cons] at ih ⊢
    rw [← linesContent] at ih ⊢
    rw [ih]
    simp [lineStart]

/-- A nonempty newline-terminated stream ends with a newline byte. -/
theorem linesContent_reverse_head (ls : List (List Nat)) (h : ls ≠ []) :
    (linesContent ls).reverse.head? = some 10 := by
  rw [linesContent_reverse]
  cases hl : ls.reverse with
  | nil => exact absurd (List.reverse_eq_nil_iff.mp hl) h
  | cons l t => simp

/-- Line-start offsets never exceed the total length. -/
theorem lineStart_le (ls : List (List Nat)) (m : Nat) :
    lineStart ls m ≤ lineStart ls ls.length := by
  unfold lineStart
  rw [List.take_length, List.map_take]
  have h := List.sum_take_add_sum_drop (ls.map (fun l => l.length + 1)) m
  omega

/-- Taking the last k of the reversed lines leaves exactly the bytes after
line number (length − k). -/
theorem lineStart_reverse (ls : List (List Nat)) (k : Nat) :
    lineStart ls.reverse k =
      lineStart ls ls.length - lineStart ls (ls.length - k) := by
  unfold lineStart
  rw [List.take_reverse, List.map_reverse, List.sum_reverse, List.take_length]
  rw [List.map_take, List.map_drop]
  have h := List.sum_take_add_sum_drop (ls.map (fun l => l.length + 1)) (ls.length - k)
  have h2 := List.sum_take_add_sum_drop (ls.map (fun l => l.length + 1)) ls.length
  omega

/-- C1: for a stream that is exactly K newline-terminated lines and any
K2 ≤ K, Lines(FromEnd K2) resolves to the byte offset of the start of
the (K − K2 + 1)-th line (the trailing newline is peeked and compensated
by counting one extra newline backward). -/
theorem lines_from_end_terminated (B : Nat) (ls : List (List Nat)) (k : Nat)
    (hB : 0 < B) (hnl : ∀ l ∈ ls, ∀ x ∈ l, ¬ x = 10) (hk : k ≤ ls.length) :
    resolveSeek (linesContent ls).length
        (lines_seek_pos B (linesContent ls) (.FromEnd k)) =
      (lineStart ls (ls.length - k) : Int) := by
  have hlen := linesContent_length ls
  cases k with
  | zero =>
    simp only [lines_seek_pos, resolveSeek, Nat.sub_zero]
    rw [hlen]
    simp
  | succ k0 =>
    have hne : ls ≠ [] := by
      intro h
      subst h
      simp at hk
    have hpeek : (BackScanner.new B (linesContent ls)).peek = some 10 := by
      rw [peek_new B _ hB, linesContent_reverse_head ls hne]
    have hdr := drain_eq_reverse B (linesContent ls) hB
    have hrev := linesContent_reverse ls
    have hcb := count_back_groups ls.reverse (k0 + 1 + 1) 0
      (fun l hl => hnl l (List.mem_reverse.mp hl)) (by omega)
    have hmin : min (k0 + 1 + 1 - 1) ls.reverse.length = k0 + 1 := by
      rw [List.length_reverse]
      omega
    rw [hmin] at hcb
    have hlsr := lineStart_reverse ls (k0 + 1)
    have hle := lineStart_le ls (ls.length - (k0 + 1))
    have hrem : (if (BackScanner.new B (linesContent ls)).peek = some 10
        then k0 + 1 + 1 else k0 + 1) = k0 + 1 + 1 := if_pos hpeek
    simp only [lines_seek_pos, resolveSeek]
    rw [hrem, hdr, hrev, hcb, hlsr, hlen]
    omega

/-- Witness for C1: two lines ab and c, asking for the last line resolves
to offset 3, the start of line 2. -/
theorem lines_from_end_terminated_witness :
    resolveSeek (linesContent [[97, 98], [99]]).length
        (lines_seek_pos 2 (linesContent [[97, 98], [99]]) (.FromEnd 1)) =
      (lineStart [[97, 98], [99]] ([[97, 98], [99]].length - 1) : Int) :=
  lines_from_end_terminated 2 [[97, 98], [99]] 1 (by decide)
    (by decide) (by decide)

/-- C7: Lines(FromEnd 0) resolves to the stream length, so the copy that
follows produces empty output. -/
theorem lines_from_end_zero_resolved (B : Nat) (content : List Nat) :
    resolveSeek content.length (lines_seek_pos B content (.FromEnd 0)) =
      (content.length : Int) := by
  simp [lines_seek_pos, resolveSeek]

/-- A takeWhile result is never longer than its input. -/
theorem takeWhile_len_le (p : Nat → Bool) (l : List Nat) :
    (l.takeWhile p).length ≤ l.length := by
  induction l with
  | nil => simp
  | cons b t ih =>
    by_cases hb : p b
    · simp only [List.takeWhile_cons, hb, if_true, List.length_cons]
      omega
    · simp only [List.takeWhile_cons, hb, if_false, List.length_cons]
      simp

/-- C2: for a non-empty stream whose last byte is not a newline,
Lines(FromEnd 1) resolves to the byte offset of the start of the final
unterminated line; in particular, with no newline anywhere in the stream
the resolved offset is 0. -/
theorem lines_from_end_unterminated (B : Nat) (content : List Nat)
    (hB : 0 < B) (_hne : content ≠ []) (hlast : content.getLast? ≠ some 10) :
    resolveSeek content.length (lines_seek_pos B content (.FromEnd 1)) =
      (lastLineStart content : Int) ∧
    (10 ∉ content →
      resolveSeek content.length (lines_seek_pos B content (.FromEnd 1)) = 0) := by
  have hpeek : ¬ (BackScanner.new B content).peek = some 10 := by
    rw [peek_new B content hB, List.head?_reverse]
    exact hlast
  have hunfold : lines_seek_pos B content (.FromEnd 1) =
      .End (-(count_back (drain B content)
        (if (BackScanner.new B content).peek = some 10 then 1 + 1 else 1) 0 : Int)) :=
    rfl
  have hrem : (if (BackScanner.new B content).peek = some 10
      then 1 + 1 else 1) = 1 := if_neg hpeek
  have htw : (content.reverse.takeWhile (fun b => b != 10)).length ≤
      content.length := by
    have h := takeWhile_len_le (fun b => b != 10) content.reverse
    rw [List.length_reverse] at h
    exact h
  have hval : resolveSeek content.length (lines_seek_pos B content (.FromEnd 1)) =
      (lastLineStart content : Int) := by
    rw [hunfold, hrem, drain_eq_reverse B content hB,
      count_back_one content.reverse 0]
    simp only [resolveSeek, lastLineStart]
    omega
  refine ⟨hval, fun h10 => ?_⟩
  have hall : content.reverse.takeWhile (fun b => b != 10) = content.reverse := by
    rw [List.takeWhile_eq_self_iff]
    intro a ha
    have : a ∈ content := List.mem_reverse.mp ha
    simp only [bne_iff_ne, ne_eq]
    intro heq
    exact h10 (heq ▸ this)
  rw [hval]
  unfold lastLineStart
  rw [hall, List.length_reverse]
  simp

/-- Witness for C2 over the stream a, newline, b whose last byte b is not
a newline: the final line starts at offset 2. -/
theorem lines_from_end_unterminated_witness :
    resolveSeek ([97, 10, 98] : List Nat).length
        (lines_seek_pos 2 [97, 10, 98] (.FromEnd 1)) =
      (lastLineStart [97, 10, 98] : Int) ∧
    (10 ∉ ([97, 10, 98] : List Nat) →
      resolveSeek ([97, 10, 98] : List Nat).length
          (lines_seek_pos 2 [97, 10, 98] (.FromEnd 1)) = 0) :=
  lines_from_end_unterminated 2 [97, 10, 98] (by decide) (by decide) (by decide)

/-- Skipping zero lines consumes nothing. -/
theorem skip_lines_forward_zero (bytes : List Nat) (skip : Nat) :
    skip_lines_forward bytes 0 skip = skip := by
  cases bytes <;> simp [skip_lines_forward]

/-- One step of the forward line-skipping loop. -/
theorem skip_lines_forward_cons (b : Nat) (t : List Nat) (r skip : Nat) :
    skip_lines_forward (b :: t) (r + 1) skip =
      if b = 10 then
        (if r = 0 then skip + 1 else skip_lines_forward t r (skip + 1))
      else skip_lines_forward t (r + 1) (skip + 1) := by
  simp [skip_lines_forward]

/-- Forward step at a newline byte. -/
theorem skip_lines_forward_cons_nl (t : List Nat) (r skip : Nat) :
    skip_lines_forward (10 :: t) (r + 1) skip =
      if r = 0 then skip + 1 else skip_lines_forward t r (skip + 1) := by
  simp [skip_lines_forward]

/-- Forward step at a non-newline byte. -/
theorem skip_lines_forward_cons_other (b : Nat) (t : List Nat) (r skip : Nat)
    (hb : ¬ b = 10) :
    skip_lines_forward (b :: t) (r + 1) skip =
      skip_lines_forward t (r + 1) (skip + 1) := by
  simp [skip_lines_forward, hb]

/-- The forward loop only adds to its byte counter. -/
theorem skip_lines_forward_acc (bytes : List Nat) :
    ∀ rem skip, skip_lines_forward bytes rem skip =
      skip + skip_lines_forward bytes rem 0 := by
  induction bytes with
  | nil =>
    intro rem skip
    cases rem <;> simp [skip_lines_forward]
  | cons b t ih =>
    intro rem skip
    cases rem with
    | zero => simp [skip_lines_forward_zero]
    | succ r =>
      rw [skip_lines_forward_cons, skip_lines_forward_cons]
      by_cases hb : b = 10
      · by_cases hr : r = 0
        · simp only [if_pos hb, if_pos hr]
        · simp only [if_pos hb, if_neg hr]
          rw [ih r (skip + 1), ih r 1]
          omega
      · simp only [if_neg hb]
        rw [ih (r + 1) (skip + 1), ih (r + 1) 1]
        omega

/-- The forward loop never counts more bytes than the stream holds. -/
theorem skip_lines_forward_le (bytes : List Nat) :
    ∀ rem skip, skip_lines_forward bytes rem skip ≤ skip + bytes.length := by
  induction bytes with
  | nil =>
    intro rem skip
    cases rem <;> simp [skip_lines_forward]
  | cons b t ih =>
    intro rem skip
    cases rem with
    | zero =>
      rw [skip_lines_forward_zero]
      simp
    | succ r =>
      rw [skip_lines_forward_cons]
      by_cases hb : b = 10
      · by_cases hr : r = 0
        · simp only [if_pos hb, if_pos hr, List.length_cons]
          omega
        · simp only [if_pos hb, if_neg hr, List.length_cons]
          have := ih r (skip + 1)
          omega
      · simp only [if_neg hb, List.length_cons]
        have := ih (r + 1) (skip + 1)
        omega

/-- Characterization of the forward line-skipping loop started on a fresh
counter: with at least o newlines available the loop stops right after
the o-th one; with fewer it consumes the whole stream. -/
theorem skip_lines_forward_spec (bytes : List Nat) :
    ∀ o, 1 ≤ o →
      (o ≤ bytes.count 10 →
        (bytes.take (skip_lines_forward bytes o 0)).count 10 = o ∧
        0 < skip_lines_forward bytes o 0 ∧
        bytes.getD (skip_lines_forward bytes o 0 - 1) 0 = 10) ∧
      (bytes.count 10 < o → skip_lines_forward bytes o 0 = bytes.length) := by
  induction bytes with
  | nil =>
    intro o ho
    constructor
    · intro hle
      simp at hle
      omega
    · intro _
      obtain ⟨r, rfl⟩ : ∃ r, o = r + 1 := ⟨o - 1, by omega⟩
      simp [skip_lines_forward]
  | cons b t ih =>
    intro o ho
    obtain ⟨r, rfl⟩ : ∃ r, o = r + 1 := ⟨o - 1, by omega⟩
    by_cases hb : b = 10
    · subst hb
      rw [skip_lines_forward_cons_nl]
      by_cases hr : r = 0
      · subst hr
        rw [if_pos (Eq.refl (0 : Nat))]
        constructor
        · intro _
          refine ⟨?_, by omega, by simp⟩
          simp [List.count_cons]
        · intro hlt
          simp [List.count_cons] at hlt
      · rw [if_neg hr]
        rw [skip_lines_forward_acc t r 1]
        have hcnt : (10 :: t).count 10 = t.count 10 + 1 := by
          simp [List.count_cons]
        constructor
        · intro hle
          rw [hcnt] at hle
          obtain ⟨hc, hpos, hgd⟩ := (ih r (by omega)).1 (by omega)
          obtain ⟨m, hm⟩ : ∃ m, skip_lines_forward t r 0 = m + 1 :=
            ⟨skip_lines_forward t r 0 - 1, by omega⟩
          refine ⟨?_, by omega, ?_⟩
          · have h1r : 1 + skip_lines_forward t r 0 =
                skip_lines_forward t r 0 + 1 := by omega
            rw [h1r, List.take_succ_cons, List.count_cons, hc]
            simp
          · have h1r : 1 + skip_lines_forward t r 0 - 1 = m + 1 := by omega
            rw [h1r, List.getD_cons_succ]
            rw [hm] at hgd
            simpa using hgd
        · intro hlt
          rw [hcnt] at hlt
          have hlen := (ih r (by omega)).2 (by omega)
          rw [hlen]
          simp only [List.length_cons]
          omega
      -- end b = 10
    · rw [skip_lines_forward_cons_other b t r 0 hb]
      rw [skip_lines_forward_acc t (r + 1) 1]
      have hcnt : (b :: t).count 10 = t.count 10 := by
        simp [List.count_cons, hb]
      constructor
      · intro hle
        rw [hcnt] at hle
        obtain ⟨hc, hpos, hgd⟩ := (ih (r + 1) (by omega)).1 hle
        obtain ⟨m, hm⟩ : ∃ m, skip_lines_forward t (r + 1) 0 = m + 1 :=
          ⟨skip_lines_forward t (r + 1) 0 - 1, by omega⟩
        refine ⟨?_, by omega, ?_⟩
        · have h1r : 1 + skip_lines_forward t (r + 1) 0 =
              skip_lines_forward t (r + 1) 0 + 1 := by omega
          rw [h1r, List.take_succ_cons, List.count_cons, hc]
          simp [hb]
        · have h1r : 1 + skip_lines_forward t (r + 1) 0 - 1 = m + 1 := by omega
          rw [h1r, List.getD_cons_succ]
          rw [hm] at hgd
          simpa using hgd
      · intro hlt
        rw [hcnt] at hlt
        have hlen := (ih (r + 1) (by omega)).2 hlt
        rw [hlen]
        simp only [List.length_cons]
        omega

/-- C6: Lines(FromStart O) resolves to 0 when O = 0; when the stream
holds at least O ≥ 1 newlines it resolves to the byte offset immediately
following the O-th newline (the skipped prefix holds exactly O newlines
and ends in a newline byte); with fewer than O newlines it resolves to
the stream length. -/
theorem lines_from_start_resolved (B : Nat) (content : List Nat) (o : Nat) :
    (o = 0 →
      resolveSeek content.length (lines_seek_pos B content (.FromStart o)) = 0) ∧
    (1 ≤ o → o ≤ content.count 10 →
      resolveSeek content.length (lines_seek_pos B content (.FromStart o)) =
        (skip_lines_forward content o 0 : Int) ∧
      (content.take (skip_lines_forward content o 0)).count 10 = o ∧
      0 < skip_lines_forward content o 0 ∧
      content.getD (skip_lines_forward content o 0 - 1) 0 = 10) ∧
    (content.count 10 < o →
      resolveSeek content.length (lines_seek_pos B content (.FromStart o)) =
        (content.length : Int)) := by
  have hres : resolveSeek content.length
      (lines_seek_pos B content (.FromStart o)) =
      (skip_lines_forward content o 0 : Int) := rfl
  refine ⟨?_, ?_, ?_⟩
  · intro h0
    subst h0
    rw [hres, skip_lines_forward_zero]
    simp
  · intro h1 h2
    obtain ⟨hc, hpos, hgd⟩ := (skip_lines_forward_spec content o h1).1 h2
    exact ⟨hres, hc, hpos, hgd⟩
  · intro hlt
    cases o with
    | zero => exact absurd hlt (Nat.not_lt_zero _)
    | succ o2 =>
      rw [hres, (skip_lines_forward_spec content (o2 + 1) (by omega)).2 hlt]

/-- Witness for C6: skipping one line of a, newline, b resolves to offset
2, whose cut prefix holds exactly the one newline and ends with it. -/
theorem lines_from_start_resolved_witness :
    resolveSeek ([97, 10, 98] : List Nat).length
        (lines_seek_pos 2 [97, 10, 98] (.FromStart 1)) =
      (skip_lines_forward [97, 10, 98] 1 0 : Int) ∧
    (([97, 10, 98] : List Nat).take (skip_lines_forward [97, 10, 98] 1 0)).count 10 = 1 ∧
    0 < skip_lines_forward [97, 10, 98] 1 0 ∧
    ([97, 10, 98] : List Nat).getD (skip_lines_forward [97, 10, 98] 1 0 - 1) 0 = 10 :=
  (lines_from_start_resolved 2 [97, 10, 98] 1).2.1 (by decide) (by decide)

/-- C9: for every mode and position the resolved absolute offset lies
between 0 and the stream length inclusive, so splitting the stream at it
and concatenating the two parts reconstitutes the content. -/
theorem seek_pos_round_trip (B : Nat) (content : List Nat) (m : Mode)
    (hB : 0 < B) :
    0 ≤ resolveSeek content.length (seek_pos B content m) ∧
    resolveSeek content.length (seek_pos B content m) ≤ (content.length : Int) ∧
    content.take (resolveSeek content.length (seek_pos B content m)).toNat ++
        content.drop (resolveSeek content.length (seek_pos B content m)).toNat =
      content := by
  have hb : 0 ≤ resolveSeek content.length (seek_pos B content m) ∧
      resolveSeek content.length (seek_pos B content m) ≤ (content.length : Int) := by
    cases m with
    | Bytes p =>
      cases p with
      | FromStart o =>
        simp only [seek_pos, bytes_seek_pos, resolveSeek]
        omega
      | FromEnd o =>
        simp only [seek_pos, bytes_seek_pos, resolveSeek]
        omega
    | Lines p =>
      cases p with
      | FromStart o =>
        have hle := skip_lines_forward_le content o 0
        simp only [seek_pos, lines_seek_pos, resolveSeek]
        omega
      | FromEnd o =>
        cases o with
        | zero =>
          simp only [seek_pos, lines_seek_pos, resolveSeek]
          omega
        | succ o2 =>
          have hdl : (drain B content).length = content.length := by
            rw [drain_eq_reverse B content hB, List.length_reverse]
          have hcb := count_back_le (drain B content)
            (if (BackScanner.new B content).peek = some 10 then o2 + 1 + 1
              else o2 + 1) 0
          rw [hdl] at hcb
          simp only [seek_pos, lines_seek_pos, resolveSeek]
          omega
  exact ⟨hb.1, hb.2, List.take_append_drop _ _⟩

/-- Witness for C9 at buffer size 2 over the stream a, newline, b with
mode Lines(FromEnd 1). -/
theorem seek_pos_round_trip_witness :
    0 ≤ resolveSeek ([97, 10, 98] : List Nat).length
        (seek_pos 2 [97, 10, 98] (.Lines (.FromEnd 1))) ∧
    resolveSeek ([97, 10, 98] : List Nat).length
        (seek_pos 2 [97, 10, 98] (.Lines (.FromEnd 1))) ≤
      (([97, 10, 98] : List Nat).length : Int) ∧
    ([97, 10, 98] : List Nat).take
        (resolveSeek ([97, 10, 98] : List Nat).length
          (seek_pos 2 [97, 10, 98] (.Lines (.FromEnd 1)))).toNat ++
      ([97, 10, 98] : List Nat).drop
        (resolveSeek ([97, 10, 98] : List Nat).length
          (seek_pos 2 [97, 10, 98] (.Lines (.FromEnd 1)))).toNat =
      [97, 10, 98] :=
  seek_pos_round_trip 2 [97, 10, 98] (.Lines (.FromEnd 1)) (by decide)

/-- A digit character is neither a plus nor a minus sign. -/
theorem digit_not_sign (c : Char) (h : isDigitChar c = true) :
    ¬ c = '+' ∧ ¬ c = '-' := by
  constructor <;>
  · intro heq
    subst heq
    simp [isDigitChar] at h

/-- parse_usize accepts a nonempty all-digit string whose value is within
the usize range. -/
theorem parse_usize_digits (ds : List Char) (hne : ds ≠ [])
    (hdig : ds.all isDigitChar = true) (hmax : digitsVal ds ≤ USIZE_MAX) :
    parse_usize ds = .ok (digitsVal ds) := by
  obtain ⟨c, t, rfl⟩ : ∃ c t, ds = c :: t := by
    cases ds with
    | nil => exact absurd rfl hne
    | cons c t => exact ⟨c, t, rfl⟩
  have hc : isDigitChar c = true := by
    simp [List.all_cons] at hdig
    exact hdig.1
  have hcp : ¬ (c :: t).head? = some '+' := by
    simp only [List.head?_cons, Option.some.injEq]
    exact (digit_not_sign c hc).1
  unfold parse_usize
  rw [if_neg hcp]
  rw [if_neg (by simp)]
  rw [if_pos hdig, if_pos hmax]

/-- C3 amended: for every all-digit numeral N whose value n fits in
usize, the parser maps "+N" with n > 0 to FromStart (n−1), "+0"-style
zero numerals to FromStart 0 without underflow, and bare "N" as well as
"-N" to FromEnd n.  (Values beyond usize::MAX are rejected with an
overflow error instead, see the counterexample.) -/
theorem parse_pos_convention (ds : List Char) (n : Nat) (hne : ds ≠ [])
    (hdig : ds.all isDigitChar = true) (hval : digitsVal ds = n)
    (hmax : n ≤ USIZE_MAX) :
    (0 < n → parse_pos ('+' :: ds) = .ok (.FromStart (n - 1))) ∧
    (n = 0 → parse_pos ('+' :: ds) = .ok (.FromStart 0)) ∧
    parse_pos ('-' :: ds) = .ok (.FromEnd n) ∧
    parse_pos ds = .ok (.FromEnd n) := by
  subst hval
  have hpu : parse_usize ds = .ok (digitsVal ds) :=
    parse_usize_digits ds hne hdig hmax
  obtain ⟨c, t, rfl⟩ : ∃ c t, ds = c :: t := by
    cases ds with
    | nil => exact absurd rfl hne
    | cons c t => exact ⟨c, t, rfl⟩
  have hc : isDigitChar c = true := by
    simp [List.all_cons] at hdig
    exact hdig.1
  have hplus : parse_pos ('+' :: c :: t) =
      .ok (.FromStart (if 0 < digitsVal (c :: t)
        then digitsVal (c :: t) - 1 else 0)) := by
    unfold parse_pos
    rw [if_neg (by simp)]
    rw [if_pos (by simp)]
    simp only [List.tail_cons]
    rw [hpu]
    rfl
  refine ⟨?_, ?_, ?_, ?_⟩
  · intro hn
    rw [hplus, if_pos hn]
  · intro hn
    rw [hplus, hn]
    rfl
  · unfold parse_pos
    rw [if_neg (by simp)]
    rw [if_neg (by simp)]
    rw [if_pos (by simp)]
    simp only [List.tail_cons]
    rw [hpu]
    rfl
  · unfold parse_pos
    have h1 : ¬ (c :: t).head? = some '+' := by
      simp only [List.head?_cons, Option.some.injEq]
      exact (digit_not_sign c hc).1
    have h2 : ¬ (c :: t).head? = some '-' := by
      simp only [List.head?_cons, Option.some.injEq]
      exact (digit_not_sign c hc).2
    rw [if_neg (by simp [hne])]
    rw [if_neg h1, if_neg h2, hpu]
    rfl

/-- Witness for the amended C3 at the numeral 42. -/
theorem parse_pos_convention_witness :
    (0 < 42 → parse_pos ('+' :: ['4', '2']) = .ok (.FromStart (42 - 1))) ∧
    (42 = 0 → parse_pos ('+' :: ['4', '2']) = .ok (.FromStart 0)) ∧
    parse_pos ('-' :: ['4', '2']) = .ok (.FromEnd 42) ∧
    parse_pos ['4', '2'] = .ok (.FromEnd 42) :=
  parse_pos_convention ['4', '2'] 42 (by decide) (by decide) (by decide) (by decide)

/-- C3 counterexample: the input "+18446744073709551616" (2 to the 64th,
one past usize::MAX on a 64-bit platform) is rejected with an overflow
error rather than mapped to FromStart of its value minus one, so the
parser does not map EVERY "+N" with N > 0 to FromStart (N−1). -/
theorem parse_pos_overflow_cex :
    (parse_pos ['+', '1', '8', '4', '4', '6', '7', '4', '4', '0', '7', '3',
        '7', '0', '9', '5', '5', '1', '6', '1', '6']).toOption ≠
      some (Pos.FromStart (18446744073709551616 - 1)) ∧
    (parse_pos ['+', '1', '8', '4', '4', '6', '7', '4', '4', '0', '7', '3',
        '7', '0', '9', '5', '5', '1', '6', '1', '6']).toOption = none := by
  constructor
  · decide
  · decide

end Tailr
